import Mathlib

/-! # go-git-diff-tree-performance: normaliser, comparator and commit pairer

A shallow embedding of `main.go`, `git.go`, `diff.go` and the data types of
`gogit.go`, followed by the properties of the specification that concern them.

Conventions of the embedding:

* a Go `string` is its sequence of bytes (`GoString`), each byte a natural
  number below 256;
* a Go slice that the program tests against `nil` is an `Option (List _)`,
  `none` being the nil slice;
* a call that may not return normally yields `Go α`: either a value, or a
  returned error, a run-time panic, or the process exit of `log.Fatal`;
* what the program takes from the Go standard library (`unicode/utf8`, `fmt`,
  `sort`, `reflect`) and from the go-git library is described next to the
  definition that stands for it.
-/

namespace DiffTree

/-! ## Go values -/

/-- A Go `string`: a sequence of bytes. -/
abbrev GoString := List Nat

/-- The ways a call can fail to return a value. -/
inductive Failure where
  | err (msg : String)
  | panic (msg : String)
  | fatal (msg : String)
deriving DecidableEq, Repr

/-- Result of a Go call: a value or a `Failure`. -/
abbrev Go (α : Type) := Except Failure α

/-- A Go slice compared against `nil` by the program: `none` is the nil slice. -/
abbrev Slice (α : Type) := Option (List α)

/-- The elements of a slice, as `range` visits them (none for the nil slice). -/
def Slice.elems {α : Type} : Slice α → List α
  | none => []
  | some xs => xs

/-- Go `len` of a slice (0 for the nil slice). -/
def Slice.len {α : Type} (s : Slice α) : Nat := s.elems.length

/-! ## `unicode/utf8` -/

/-- The constant `utf8.RuneError`, U+FFFD. -/
def RuneError : Nat := 0xFFFD

/-- Lowest second byte accepted after the leading byte `s0` (`acceptRanges[..].lo`). -/
def acceptLo (s0 : Nat) : Nat :=
  if s0 = 0xE0 then 0xA0 else if s0 = 0xF0 then 0x90 else 0x80

/-- Highest second byte accepted after the leading byte `s0` (`acceptRanges[..].hi`). -/
def acceptHi (s0 : Nat) : Nat :=
  if s0 = 0xED then 0x9F else if s0 = 0xF4 then 0x8F else 0xBF

/-- The function `utf8.DecodeRuneInString`: the first rune of `s` and its width in
bytes. Invalid or truncated encodings give `(RuneError, 1)`, the empty string
`(RuneError, 0)`. The masks and shifts of the library are written arithmetically:
`x & 0x3F` is `x % 64`, `x << 6` is `x * 64`, and `|` of disjoint bit fields is `+`. -/
def DecodeRuneInString : GoString → Nat × Nat
  | [] => (RuneError, 0)
  | s0 :: rest =>
    if s0 < 0x80 then (s0, 1)
    else if s0 < 0xC2 then (RuneError, 1)
    else if s0 < 0xE0 then
      match rest with
      | s1 :: _ =>
        if 0x80 ≤ s1 ∧ s1 ≤ 0xBF then (s0 % 32 * 64 + s1 % 64, 2) else (RuneError, 1)
      | [] => (RuneError, 1)
    else if s0 < 0xF0 then
      match rest with
      | s1 :: s2 :: _ =>
        if acceptLo s0 ≤ s1 ∧ s1 ≤ acceptHi s0 ∧ 0x80 ≤ s2 ∧ s2 ≤ 0xBF then
          (s0 % 16 * 4096 + s1 % 64 * 64 + s2 % 64, 3)
        else (RuneError, 1)
      | _ => (RuneError, 1)
    else if s0 < 0xF5 then
      match rest with
      | s1 :: s2 :: s3 :: _ =>
        if acceptLo s0 ≤ s1 ∧ s1 ≤ acceptHi s0 ∧ 0x80 ≤ s2 ∧ s2 ≤ 0xBF ∧
            0x80 ≤ s3 ∧ s3 ≤ 0xBF then
          (s0 % 8 * 262144 + s1 % 64 * 4096 + s2 % 64 * 64 + s3 % 64, 4)
        else (RuneError, 1)
      | _ => (RuneError, 1)
    else (RuneError, 1)

/-- The UTF-8 encoding of the rune `r`, as `utf8.EncodeRune` and
`bytes.Buffer.WriteRune` compute it: one to four bytes, surrogates and values
above U+10FFFF being encoded as `RuneError`. -/
def encodeBytes (r : Nat) : List Nat :=
  if r ≤ 0x7F then [r]
  else if r ≤ 0x7FF then [0xC0 + r / 64, 0x80 + r % 64]
  else if 0x10FFFF < r ∨ (0xD800 ≤ r ∧ r ≤ 0xDFFF) then [0xEF, 0xBF, 0xBD]
  else if r ≤ 0xFFFF then [0xE0 + r / 4096, 0x80 + r / 64 % 64, 0x80 + r % 64]
  else [0xF0 + r / 262144, 0x80 + r / 4096 % 64, 0x80 + r / 64 % 64, 0x80 + r % 64]

/-- The function `utf8.EncodeRune(p, r)`: writes the encoding of `r` at the start of
the buffer `p` and returns the buffer and the number of bytes written; it panics
with an index out of range when the encoding is longer than `p`. -/
def EncodeRune (p : List Nat) (r : Nat) : Go (List Nat × Nat) :=
  let bs := encodeBytes r
  if bs.length ≤ p.length then .ok (bs ++ p.drop bs.length, bs.length)
  else .error (.panic "runtime error: index out of range")

/-- The bytes of a source-code string literal. -/
def str (s : String) : GoString := s.toList.flatMap fun c => encodeBytes c.toNat

/-! ## `main.go`: path quoting -/

/-- What `fmt.Fprintf(&buf, "%o", b)` appends for a byte `b`: its octal digits,
without padding. -/
def fmtOctal (b : Nat) : List Nat := (Nat.toDigits 8 b).map Char.toNat

/-- The inner loop of `quoteUnicode`: for each of the bytes, a backslash and the
byte in octal. -/
def writeEscapes (bs : List Nat) : List Nat := bs.flatMap fun b => 0x5C :: fmtOctal b

/-- State of the loop of `quoteUnicode`: the output buffer `buf`, the scratch
buffer `rune` and the flag `nonAscii`. -/
structure QuoteState where
  buf : List Nat
  rune : List Nat
  nonAscii : Bool
deriving DecidableEq, Repr

/-- The loop `for i, r := range s` of `quoteUnicode`. The list is the part of `s`
from the current byte on; `skip` counts the bytes that still belong to the rune
decoded last, which `range` steps over. At the start of a rune, `range` yields
the rune that `utf8.DecodeRuneInString(s[i:])` decodes. -/
def quoteLoop : Nat → GoString → QuoteState → Go QuoteState
  | _, [], st => .ok st
  | skip + 1, _ :: rest, st => quoteLoop skip rest st
  | 0, b :: rest, st =>
    let r := (DecodeRuneInString (b :: rest)).1
    let value := (DecodeRuneInString (b :: rest)).1
    let width := (DecodeRuneInString (b :: rest)).2
    if width > 1 then
      match EncodeRune st.rune value with
      | .error e => .error e
      | .ok (rune, n) =>
        quoteLoop (width - 1) rest
          { buf := st.buf ++ writeEscapes (rune.take n), rune := rune, nonAscii := true }
    else
      quoteLoop 0 rest { st with buf := st.buf ++ encodeBytes r }

/-- The function `quoteUnicode` of `main.go`. -/
def quoteUnicode (s : GoString) : Go GoString :=
  match quoteLoop 0 s { buf := [], rune := [0, 0, 0], nonAscii := false } with
  | .error e => .error e
  | .ok st => if st.nonAscii then .ok (str "\"" ++ st.buf ++ str "\"") else .ok st.buf

/-! ## go-git: what the program uses of `plumbing/object` and `utils/merkletrie` -/

/-- The type `merkletrie.Action`: the three named actions, and `other` for any
further value of the underlying integer type. -/
inductive merkletrie.Action where
  | Insert
  | Delete
  | Modify
  | other (n : Nat)
deriving DecidableEq, Repr

/-- The fields of `object.TreeEntry` the program reads; `Mode` is an `os.FileMode`,
an unsigned 32-bit value. -/
structure TreeEntry where
  Name : GoString
  Mode : Nat
deriving DecidableEq, Repr

/-- The fields of `object.ChangeEntry` the program reads. -/
structure ChangeEntry where
  Name : GoString
  TreeEntry : TreeEntry
deriving DecidableEq, Repr

/-- The type `object.Change`. -/
structure Change where
  From : ChangeEntry
  To : ChangeEntry
deriving DecidableEq, Repr

/-- The go-git library as the program sees it: three mode constants of package
`object` and the method `(*object.Change).Action`, which returns an action or an
error message. The program is embedded for an arbitrary such library. -/
structure GoGit where
  FileMode : Nat
  FileModeDeprecated : Nat
  SymlinkMode : Nat
  Action : Change → Except String merkletrie.Action

/-- The zero `ChangeEntry`, which go-git uses for the missing side of a change. -/
def ChangeEntry.empty : ChangeEntry := { Name := [], TreeEntry := { Name := [], Mode := 0 } }

/-- The library with the values of go-git v4: regular files have mode `0100644`
(deprecated `0100664`), symbolic links `0120000`, and the action of a change is
read off its empty sides. -/
def goGit : GoGit where
  FileMode := 0o100644
  FileModeDeprecated := 0o100664
  SymlinkMode := 0o120000
  Action := fun c =>
    if c.From = ChangeEntry.empty ∧ c.To = ChangeEntry.empty then
      .error "malformed change: empty from and to"
    else if c.From = ChangeEntry.empty then .ok .Insert
    else if c.To = ChangeEntry.empty then .ok .Delete
    else .ok .Modify

/-! ## `diff.go` and `gogit.go`: records -/

/-- The struct `diff` of `diff.go`. -/
structure diff where
  «from» : GoString
  «to» : GoString
  lines : Slice GoString
deriving DecidableEq, Repr

/-- The method `(*diff).String` of `diff.go`. -/
def diff.String (d : diff) : GoString :=
  let pre := d.«from» ++ str " " ++ d.«to» ++ str " "
  d.lines.elems.flatMap fun l => pre ++ l ++ str "\n"

/-- The struct `gogitResult` of `gogit.go`. Of the slice `changes` the program
takes only `len` and `range`, so it is kept as the list of its elements. -/
structure gogitResult where
  «from» : GoString
  «to» : GoString
  changes : List Change
deriving DecidableEq, Repr

/-! ## `main.go`: type changes -/

/-- The function `isRegular` of `main.go`; `os.FileMode(0644)` is the number 420. -/
def isRegular (L : GoGit) (a : Nat) : Bool :=
  a == L.FileMode || a == L.FileModeDeprecated || a == 0o644

/-- The function `isLink` of `main.go`. -/
def isLink (L : GoGit) (a : Nat) : Bool :=
  a &&& L.SymlinkMode == L.SymlinkMode

/-- The function `fileTypeChange` of `main.go`. -/
def fileTypeChange (L : GoGit) (a b : Nat) : Bool :=
  if isRegular L a && isLink L b || isLink L a && isRegular L b then true else false

/-! ## `main.go`: normalisation of the library results -/

/-- The body of the inner loop of `difftreeChangesToDiffs`: the line of one change. -/
def changeLine (L : GoGit) (c : Change) : Go GoString :=
  match L.Action c with
  | .error e => .error (.err e)
  | .ok action =>
    let codeName : GoString × GoString :=
      match action with
      | .Insert => (str "A", c.To.Name)
      | .Delete => (str "D", c.From.Name)
      | .Modify =>
        (if fileTypeChange L c.From.TreeEntry.Mode c.To.TreeEntry.Mode then str "T"
          else str "M", c.From.Name)
      | .other _ => ([], [])
    match quoteUnicode codeName.2 with
    | .error e => .error e
    | .ok quoted => .ok (codeName.1 ++ str "\t" ++ quoted)

/-- The inner loop `for _, c := range r.changes`, appending to `d.lines`. -/
def changesLoop (L : GoGit) : List Change → List GoString → Go (List GoString)
  | [], lines => .ok lines
  | c :: cs, lines =>
    match changeLine L c with
    | .error e => .error e
    | .ok line => changesLoop L cs (lines ++ [line])

/-- The outer loop `for _, r := range rs`, appending to `ret`. The slice
`d.lines` comes from `make` and is never nil. -/
def resultsLoop (L : GoGit) : List gogitResult → List diff → Go (List diff)
  | [], ret => .ok ret
  | r :: rs, ret =>
    match changesLoop L r.changes [] with
    | .error e => .error e
    | .ok lines =>
      resultsLoop L rs (ret ++ [{ «from» := r.«from», «to» := r.«to», lines := some lines }])

/-- The function `difftreeChangesToDiffs` of `main.go`; `ret` comes from `make`
and is never nil. -/
def difftreeChangesToDiffs (L : GoGit) (rs : Slice gogitResult) : Go (Slice diff) :=
  match resultsLoop L rs.elems [] with
  | .error e => .error e
  | .ok ret => .ok (some ret)

/-! ## `main.go`: comparison -/

/-- Go's `<` on strings: bytewise lexicographic order. -/
def strLess : GoString → GoString → Bool
  | [], [] => false
  | [], _ :: _ => true
  | _ :: _, [] => false
  | a :: as, b :: bs => if a < b then true else if b < a then false else strLess as bs

/-- The order `sort.Strings` sorts by: `x` may stand before `y` when `y < x` fails. -/
def strLe (x y : GoString) : Prop := strLess y x = false

instance strLe.decidable : DecidableRel strLe := fun x y =>
  inferInstanceAs (Decidable (strLess y x = false))

/-- The elements of a slice after `sort.Strings`: sorted increasingly. The
library's algorithm is replaced by insertion sort; under this order a list has
one sorted rearrangement only (`sortList_unique`). -/
def sortList (l : List GoString) : List GoString := l.insertionSort strLe

/-- The call `sort.Strings(x)`: sorts in place, a nil slice stays nil. -/
def sortStrings (x : Slice GoString) : Slice GoString := x.map sortList

/-- The record `d` after `sort.Strings(d.lines)`. -/
def sortLines (d : diff) : diff := { d with lines := sortStrings d.lines }

/-- What `compare` yields when it returns: its two results and what it printed
on standard output. -/
structure CompareResult where
  equal : Bool
  report : GoString
  stdout : GoString
deriving DecidableEq, Repr

/-- The loop `for i, ea := range a` of `compare`, with `bb[i]` read off the head
of what is left of `bb`. `reflect.DeepEqual` on two `*diff` compares the strings
`from` and `to` and the slices `lines`, a nil slice being equal to a nil slice
only: that is equality of `diff` here. -/
def compareLoop : List diff → List diff → Bool → GoString → Go (Bool × GoString)
  | [], _, fail, out => .ok (fail, out)
  | _ :: _, [], _, _ => .error (.panic "runtime error: index out of range")
  | ea :: as, eb :: bs, fail, out =>
    let ea : diff := sortLines ea
    let eb : diff := sortLines eb
    if ea ≠ eb then
      compareLoop as bs true
        (out ++ str "==================================\n"
          ++ (str "GIT:\n" ++ ea.String ++ str "GOGIT:\n" ++ eb.String)
          ++ str "==================================\n\n")
    else compareLoop as bs fail out

/-- The function `compare` of `main.go`. An error of `difftreeChangesToDiffs`
ends the process through `log.Fatal`. -/
def compare (L : GoGit) (a : Slice diff) (b : Slice gogitResult) : Go CompareResult :=
  match a, b with
  | none, none => .ok { equal := true, report := str "both are nil", stdout := [] }
  | none, some _ => .ok { equal := false, report := str "a is nil", stdout := [] }
  | some _, none => .ok { equal := false, report := str "b is nil", stdout := [] }
  | some as, some bs =>
    if as.length ≠ bs.length then
      .ok { equal := false,
            report := str ("different lengths (" ++ toString as.length ++ ", "
              ++ toString bs.length ++ ")"),
            stdout := [] }
    else
      match difftreeChangesToDiffs L (some bs) with
      | .error (.err msg) => .error (.fatal msg)
      | .error e => .error e
      | .ok bb =>
        match compareLoop as bb.elems false [] with
        | .error e => .error e
        | .ok (fail, out) => .ok { equal := !fail, report := [], stdout := out }

/-! ## `git.go`: commit pairing -/

/-- The loop of `pairCommits`; the first argument is `i + 1` for the loop
variable `i`, so that the loop ends when it reaches 0. -/
def pairCommitsLoop (commits : List GoString) :
    Nat → List (GoString × GoString) → Go (List (GoString × GoString))
  | 0, ret => .ok ret
  | i + 1, ret =>
    match commits[i + 1]?, commits[i]? with
    | some older, some newer => pairCommitsLoop commits i (ret ++ [(older, newer)])
    | _, _ => .error (.panic "runtime error: index out of range")

/-- The function `pairCommits` of `git.go`. `make` with the capacity
`len(commits)-1` panics when `commits` is empty. -/
def pairCommits (commits : List GoString) : Go (List (GoString × GoString)) :=
  if commits.length = 0 then .error (.panic "runtime error: makeslice: cap out of range")
  else pairCommitsLoop commits (commits.length - 1) []

/-- The function `doWithGit` of `git.go`, logging and timing left out. The global
`commitsOverwrite`, the outcome of `gitListCommits(path)` and the function
`gitDiffPairs(path, ·)`, which run the external tool, are parameters. -/
def doWithGit (commitsOverwrite : List GoString) (gitListCommits : Go (List GoString))
    (gitDiffPairs : List (GoString × GoString) → Go (Slice diff)) : Go (Slice diff) :=
  let chosen : Go (List GoString) :=
    if commitsOverwrite.length ≠ 0 then .ok commitsOverwrite
    else
      match gitListCommits with
      | .error e => .error e
      | .ok commits =>
        if commits.length < 2 then .error (.err "the repo has less than 2 commits")
        else .ok commits
  match chosen with
  | .error e => .error e
  | .ok commits =>
    match pairCommits commits with
    | .error e => .error e
    | .ok pairs => gitDiffPairs pairs

/-! ## Notions of the specification -/

/-- One character in well-formed UTF-8 of at most three bytes: an ASCII byte, or
a two- or three-byte sequence of the Unicode standard (no overlong forms, no
surrogates). -/
def isUtf8Char3 : List Nat → Bool
  | [b0] => decide (b0 < 0x80)
  | [b0, b1] => decide (0xC2 ≤ b0 ∧ b0 ≤ 0xDF ∧ 0x80 ≤ b1 ∧ b1 ≤ 0xBF)
  | [b0, b1, b2] =>
    decide (((b0 = 0xE0 ∧ 0xA0 ≤ b1 ∧ b1 ≤ 0xBF) ∨ (0xE1 ≤ b0 ∧ b0 ≤ 0xEC ∧ 0x80 ≤ b1 ∧ b1 ≤ 0xBF)
      ∨ (b0 = 0xED ∧ 0x80 ≤ b1 ∧ b1 ≤ 0x9F) ∨ (0xEE ≤ b0 ∧ b0 ≤ 0xEF ∧ 0x80 ≤ b1 ∧ b1 ≤ 0xBF))
      ∧ 0x80 ≤ b2 ∧ b2 ≤ 0xBF)
  | _ => false

/-- The second and third byte ranges of a well-formed three-byte character. -/
def threeByte (b0 b1 b2 : Nat) : Prop :=
  ((b0 = 0xE0 ∧ 0xA0 ≤ b1 ∧ b1 ≤ 0xBF) ∨ (0xE1 ≤ b0 ∧ b0 ≤ 0xEC ∧ 0x80 ≤ b1 ∧ b1 ≤ 0xBF)
    ∨ (b0 = 0xED ∧ 0x80 ≤ b1 ∧ b1 ≤ 0x9F) ∨ (0xEE ≤ b0 ∧ b0 ≤ 0xEF ∧ 0x80 ≤ b1 ∧ b1 ≤ 0xBF))
    ∧ 0x80 ≤ b2 ∧ b2 ≤ 0xBF

/-- A byte written as exactly three octal digits. -/
def octal3 (b : Nat) : List Nat := [48 + b / 64, 48 + b / 8 % 8, 48 + b % 8]

/-- The quoted form of one character as the specification words it: a
single-byte character is copied, every byte of a multi-byte character becomes
a backslash and three octal digits. -/
def quotedChar (c : List Nat) : List Nat :=
  if c.length ≤ 1 then c else c.flatMap fun b => 0x5C :: octal3 b

/-- Whether a byte is an octal digit, `0` to `7`. -/
def isOctalDigit (b : Nat) : Bool := decide (48 ≤ b ∧ b ≤ 55)

/-- Whether the string starts with three octal digits. -/
def escapeAhead : GoString → Bool
  | a :: b :: c :: _ => isOctalDigit a && isOctalDigit b && isOctalDigit c
  | _ => false

/-- The byte denoted by the three octal digits the string starts with. -/
def escapeValue : GoString → Nat
  | a :: b :: c :: _ => ((a - 48) * 64 + (b - 48) * 8 + (c - 48)) % 256
  | _ => 0

/-- Reading a quoted interior back, left to right: a backslash followed by three
octal digits gives the byte they denote, any other byte gives itself. `skip`
counts the digits of the escape just read. -/
def unescapeFrom : Nat → GoString → GoString
  | _, [] => []
  | skip + 1, _ :: rest => unescapeFrom skip rest
  | 0, x :: rest =>
    if x = 0x5C ∧ escapeAhead rest = true then escapeValue rest :: unescapeFrom 3 rest
    else x :: unescapeFrom 0 rest

/-- Stripping the surrounding double quotes of a quoted path. -/
def stripQuotes : GoString → Option GoString
  | 34 :: rest => if rest.getLast? = some 34 then some rest.dropLast else none
  | _ => none

/-- Re-deriving the bytes of a path from its quoted form: strip the quotes, then
replace each escape by its byte. -/
def unquote (s : GoString) : Option GoString := (stripQuotes s).map (unescapeFrom 0)

/-- Whether the string contains a backslash followed by three octal digits. -/
def hasOctalEscape : GoString → Bool
  | [] => false
  | x :: rest => (x == 0x5C && escapeAhead rest) || hasOctalEscape rest

/-- Whether the string starts with `k` octal digits. -/
def startsWithOctal : Nat → GoString → Bool
  | 0, _ => true
  | _ + 1, [] => false
  | k + 1, a :: rest => isOctalDigit a && startsWithOctal k rest

/-- Two records that differ at most in the order of their lines. -/
def linesPermuted (d d' : diff) : Prop :=
  d.«from» = d'.«from» ∧ d.«to» = d'.«to» ∧ d.lines.isNone = d'.lines.isNone
    ∧ d.lines.elems.Perm d'.lines.elems

/-- Two library results that differ at most in the order of their changes. -/
def changesPermuted (r r' : gogitResult) : Prop :=
  r.«from» = r'.«from» ∧ r.«to» = r'.«to» ∧ r.changes.Perm r'.changes

/-- A regular-file mode as `isRegular` of `main.go` takes it: the library's
regular mode, its deprecated form, or the bare permission bits `0644`. -/
def regularMode (L : GoGit) (a : Nat) : Prop :=
  a = L.FileMode ∨ a = L.FileModeDeprecated ∨ a = 0o644

/-- A regular-file mode in the narrow sense: the library's regular mode or its
deprecated form, and nothing else. -/
def regularModeNarrow (L : GoGit) (a : Nat) : Prop :=
  a = L.FileMode ∨ a = L.FileModeDeprecated

/-- A mode with all the bits of the library's symbolic-link mode set. -/
def symlinkBits (L : GoGit) (a : Nat) : Prop :=
  a &&& L.SymlinkMode = L.SymlinkMode

/-- The comparison criterion in the wording that takes slices as plain
sequences: equal lengths and, position by position, equal endpoints and equal
sorted lists of lines. -/
def sameSortedLines (a bb : List diff) : Prop :=
  a.length = bb.length ∧
    ∀ (i : Nat) (ea eb : diff), a[i]? = some ea → bb[i]? = some eb →
      ea.«from» = eb.«from» ∧ ea.«to» = eb.«to»
        ∧ sortList ea.lines.elems = sortList eb.lines.elems

/-! ## Sample inputs -/

/-- A diffing backend that reports no record, used as sample input. -/
def noDiffs : List (GoString × GoString) → Go (Slice diff) := fun _ => .ok (some [])

/-- The characters of the path `Märchen`, used as sample input. -/
def maerchen : List (List Nat) := [[77], [0xC3, 0xA4], [114], [99], [104], [101], [110]]

/-- The characters of a path that spells out the escapes of `ä` in ASCII,
backslash `303` backslash `244`, and ends in `ä` itself; sample input. -/
def spelledEscapes : List (List Nat) :=
  [[0x5C], [51], [48], [51], [0x5C], [50], [52], [52], [0xC3, 0xA4]]

/-- Sample library result: the pair (h0, h1) with the path `a/b.txt` inserted. -/
def insertedResult : gogitResult :=
  { «from» := str "h0", «to» := str "h1",
    changes := [{ From := ChangeEntry.empty,
                  To := { Name := str "a/b.txt",
                          TreeEntry := { Name := str "b.txt", Mode := 0o100644 } } }] }

/-- Sample record of the reference backend: the pair (h0, h1) with `a/b.txt` added. -/
def insertedRecord : diff :=
  { «from» := str "h0", «to» := str "h1", lines := some [str "A\ta/b.txt"] }

/-- Sample record of the reference backend: the pair (h0, h1) with `p` modified. -/
def modifiedRecord : diff := { «from» := str "h0", «to» := str "h1", lines := some [str "M\tp"] }

/-- Sample record: the pair (h0, h1) with no line, `lines` being an empty slice. -/
def emptyRecord : diff := { «from» := str "h0", «to» := str "h1", lines := some [] }

/-- Sample record: the pair (h0, h1) with no line, `lines` being the nil slice. -/
def nilRecord : diff := { «from» := str "h0", «to» := str "h1", lines := none }

/-- Sample record: the pair (h0, h1) with `x` added and `y` deleted. -/
def addDeleteRecord : diff :=
  { «from» := str "h0", «to» := str "h1", lines := some [str "A\tx", str "D\ty"] }

/-- Sample record: as `addDeleteRecord`, the two lines exchanged. -/
def deleteAddRecord : diff :=
  { «from» := str "h0", «to» := str "h1", lines := some [str "D\ty", str "A\tx"] }

/-- Sample library result: the pair (h0, h1) without changes. -/
def unchangedResult : gogitResult := { «from» := str "h0", «to» := str "h1", changes := [] }

/-- Sample library result: the pair (h0, h1) with `x` inserted and `y` deleted. -/
def twoChangesResult : gogitResult :=
  { «from» := str "h0", «to» := str "h1",
    changes := [{ From := ChangeEntry.empty,
                  To := { Name := str "x", TreeEntry := { Name := str "x", Mode := 0o100644 } } },
                { From := { Name := str "y", TreeEntry := { Name := str "y", Mode := 0o100644 } },
                  To := ChangeEntry.empty }] }

/-- Sample library result: as `twoChangesResult`, the two changes exchanged. -/
def twoChangesSwapped : gogitResult :=
  { «from» := str "h0", «to» := str "h1",
    changes := [{ From := { Name := str "y", TreeEntry := { Name := str "y", Mode := 0o100644 } },
                  To := ChangeEntry.empty },
                { From := ChangeEntry.empty,
                  To := { Name := str "x", TreeEntry := { Name := str "x", Mode := 0o100644 } } }] }

/-- Sample library result: the pair (h0, h1) with a path inserted whose name is
the single character U+1F600, four bytes in UTF-8. -/
def fourByteResult : gogitResult :=
  { «from» := str "h0", «to» := str "h1",
    changes := [{ From := ChangeEntry.empty,
                  To := { Name := [0xF0, 0x9F, 0x98, 0x80],
                          TreeEntry := { Name := [0xF0, 0x9F, 0x98, 0x80], Mode := 0o100644 } } }] }

/-! ## Path quoting: auxiliary facts -/

theorem fmtOctal_high (b : Nat) (h1 : 128 ≤ b) (h2 : b < 256) : fmtOctal b = octal3 b := by
  interval_cases b <;> rfl

theorem decode_ascii (b : Nat) (rest : GoString) (h : b < 0x80) :
    DecodeRuneInString (b :: rest) = (b, 1) := by
  simp [DecodeRuneInString, h]

theorem decode_two (b0 b1 : Nat) (rest : GoString)
    (h0 : 0xC2 ≤ b0) (h0u : b0 ≤ 0xDF) (h1 : 0x80 ≤ b1) (h1u : b1 ≤ 0xBF) :
    DecodeRuneInString (b0 :: b1 :: rest) = (b0 % 32 * 64 + b1 % 64, 2) := by
  have e1 : ¬ b0 < 0x80 := by omega
  have e2 : ¬ b0 < 0xC2 := by omega
  have e3 : b0 < 0xE0 := by omega
  simp [DecodeRuneInString, e1, e2, e3, h1, h1u]

theorem encode_two (b0 b1 : Nat)
    (h0 : 0xC2 ≤ b0) (h0u : b0 ≤ 0xDF) (h1 : 0x80 ≤ b1) (h1u : b1 ≤ 0xBF) :
    encodeBytes (b0 % 32 * 64 + b1 % 64) = [b0, b1] := by
  have e1 : ¬ b0 % 32 * 64 + b1 % 64 ≤ 0x7F := by omega
  have e2 : b0 % 32 * 64 + b1 % 64 ≤ 0x7FF := by omega
  have e3 : 0xC0 + (b0 % 32 * 64 + b1 % 64) / 64 = b0 := by omega
  have e4 : 0x80 + (b0 % 32 * 64 + b1 % 64) % 64 = b1 := by omega
  simp only [encodeBytes, e1, e2, e3, e4, if_true, if_false]

theorem decode_three (b0 b1 b2 : Nat) (rest : GoString) (h : threeByte b0 b1 b2) :
    DecodeRuneInString (b0 :: b1 :: b2 :: rest)
      = (b0 % 16 * 4096 + b1 % 64 * 64 + b2 % 64, 3) := by
  unfold threeByte at h
  have e1 : ¬ b0 < 0x80 := by omega
  have e2 : ¬ b0 < 0xC2 := by omega
  have e3 : ¬ b0 < 0xE0 := by omega
  have e4 : b0 < 0xF0 := by omega
  have e5 : acceptLo b0 ≤ b1 := by unfold acceptLo; split_ifs <;> omega
  have e6 : b1 ≤ acceptHi b0 := by unfold acceptHi; split_ifs <;> omega
  have e7 : 0x80 ≤ b2 := by omega
  have e8 : b2 ≤ 0xBF := by omega
  simp [DecodeRuneInString, e1, e2, e3, e4, e5, e6, e7, e8]

theorem encode_three (b0 b1 b2 : Nat) (h : threeByte b0 b1 b2) :
    encodeBytes (b0 % 16 * 4096 + b1 % 64 * 64 + b2 % 64) = [b0, b1, b2] := by
  unfold threeByte at h
  have e1 : ¬ b0 % 16 * 4096 + b1 % 64 * 64 + b2 % 64 ≤ 0x7F := by omega
  have e2 : ¬ b0 % 16 * 4096 + b1 % 64 * 64 + b2 % 64 ≤ 0x7FF := by omega
  have e3 : ¬ (0x10FFFF < b0 % 16 * 4096 + b1 % 64 * 64 + b2 % 64
      ∨ (0xD800 ≤ b0 % 16 * 4096 + b1 % 64 * 64 + b2 % 64
        ∧ b0 % 16 * 4096 + b1 % 64 * 64 + b2 % 64 ≤ 0xDFFF)) := by omega
  have e4 : b0 % 16 * 4096 + b1 % 64 * 64 + b2 % 64 ≤ 0xFFFF := by omega
  have e5 : 0xE0 + (b0 % 16 * 4096 + b1 % 64 * 64 + b2 % 64) / 4096 = b0 := by omega
  have e6 : 0x80 + (b0 % 16 * 4096 + b1 % 64 * 64 + b2 % 64) / 64 % 64 = b1 := by omega
  have e7 : 0x80 + (b0 % 16 * 4096 + b1 % 64 * 64 + b2 % 64) % 64 = b2 := by omega
  simp only [encodeBytes, e1, e2, e3, e4, e5, e6, e7, if_true, if_false]

theorem quoteLoop_ascii (b : Nat) (rest : GoString) (st : QuoteState) (h : b < 0x80) :
    quoteLoop 0 (b :: rest) st = quoteLoop 0 rest { st with buf := st.buf ++ [b] } := by
  have e : b ≤ 0x7F := by omega
  simp [quoteLoop, decode_ascii b rest h, encodeBytes, e]

theorem quoteLoop_two (b0 b1 : Nat) (rest : GoString) (st : QuoteState)
    (hr : st.rune.length = 3)
    (h0 : 0xC2 ≤ b0) (h0u : b0 ≤ 0xDF) (h1 : 0x80 ≤ b1) (h1u : b1 ≤ 0xBF) :
    quoteLoop 0 (b0 :: b1 :: rest) st
      = quoteLoop 0 rest
          { buf := st.buf ++ (0x5C :: octal3 b0 ++ 0x5C :: octal3 b1),
            rune := [b0, b1] ++ st.rune.drop 2, nonAscii := true } := by
  have f0 : fmtOctal b0 = octal3 b0 := fmtOctal_high b0 (by omega) (by omega)
  have f1 : fmtOctal b1 = octal3 b1 := fmtOctal_high b1 (by omega) (by omega)
  simp [quoteLoop, decode_two b0 b1 rest h0 h0u h1 h1u, EncodeRune,
    encode_two b0 b1 h0 h0u h1 h1u, hr, writeEscapes, f0, f1]

theorem quoteLoop_three (b0 b1 b2 : Nat) (rest : GoString) (st : QuoteState)
    (hr : st.rune.length = 3) (h : threeByte b0 b1 b2) :
    quoteLoop 0 (b0 :: b1 :: b2 :: rest) st
      = quoteLoop 0 rest
          { buf := st.buf ++ (0x5C :: octal3 b0 ++ 0x5C :: octal3 b1 ++ 0x5C :: octal3 b2),
            rune := [b0, b1, b2] ++ st.rune.drop 3, nonAscii := true } := by
  have hb := h
  unfold threeByte at hb
  have f0 : fmtOctal b0 = octal3 b0 := fmtOctal_high b0 (by omega) (by omega)
  have f1 : fmtOctal b1 = octal3 b1 := fmtOctal_high b1 (by omega) (by omega)
  have f2 : fmtOctal b2 = octal3 b2 := fmtOctal_high b2 (by omega) (by omega)
  simp [quoteLoop, decode_three b0 b1 b2 rest h, EncodeRune,
    encode_three b0 b1 b2 h, hr, writeEscapes, f0, f1, f2]

theorem quoteLoop_chars (chars : List (List Nat)) (h : ∀ c ∈ chars, isUtf8Char3 c = true) :
    ∀ st : QuoteState, st.rune.length = 3 →
      ∃ rune, rune.length = 3 ∧ quoteLoop 0 chars.flatten st
        = .ok { buf := st.buf ++ chars.flatMap quotedChar, rune := rune,
                nonAscii := st.nonAscii || chars.any fun c => decide (1 < c.length) } := by
  induction chars with
  | nil =>
    intro st _
    exact ⟨st.rune, by assumption, by simp [quoteLoop]⟩
  | cons c cs ih =>
    intro st hr
    have hc := h c (by simp)
    have hcs : ∀ c ∈ cs, isUtf8Char3 c = true := fun c hc => h c (by simp [hc])
    match c, hc with
    | [], hc => simp [isUtf8Char3] at hc
    | [b0], hc =>
      have hb : b0 < 0x80 := by simpa [isUtf8Char3] using hc
      obtain ⟨rune, hl, he⟩ := ih hcs { st with buf := st.buf ++ [b0] } hr
      refine ⟨rune, hl, ?_⟩
      simp only [List.flatten_cons, List.singleton_append]
      rw [quoteLoop_ascii b0 _ st hb, he]
      simp [quotedChar]
    | [b0, b1], hc =>
      have hb : 0xC2 ≤ b0 ∧ b0 ≤ 0xDF ∧ 0x80 ≤ b1 ∧ b1 ≤ 0xBF := by
        simpa [isUtf8Char3] using hc
      obtain ⟨rune, hl, he⟩ := ih hcs
        { buf := st.buf ++ (0x5C :: octal3 b0 ++ 0x5C :: octal3 b1),
          rune := [b0, b1] ++ st.rune.drop 2, nonAscii := true } (by simp [hr])
      refine ⟨rune, hl, ?_⟩
      simp only [List.flatten_cons, List.cons_append, List.nil_append]
      rw [quoteLoop_two b0 b1 _ st hr hb.1 hb.2.1 hb.2.2.1 hb.2.2.2, he]
      simp [quotedChar]
    | [b0, b1, b2], hc =>
      have hb : threeByte b0 b1 b2 := by
        simpa [isUtf8Char3, threeByte] using hc
      obtain ⟨rune, hl, he⟩ := ih hcs
        { buf := st.buf ++ (0x5C :: octal3 b0 ++ 0x5C :: octal3 b1 ++ 0x5C :: octal3 b2),
          rune := [b0, b1, b2] ++ st.rune.drop 3, nonAscii := true } (by simp [hr])
      refine ⟨rune, hl, ?_⟩
      simp only [List.flatten_cons, List.cons_append, List.nil_append]
      rw [quoteLoop_three b0 b1 b2 _ st hr hb, he]
      simp [quotedChar]
    | _ :: _ :: _ :: _ :: _, hc => simp [isUtf8Char3] at hc

/-- On well-formed UTF-8 of at most three bytes per character, `quoteUnicode`
returns; the result is quoted exactly when a multi-byte character occurs. -/
theorem quoteUnicode_chars (chars : List (List Nat)) (h : ∀ c ∈ chars, isUtf8Char3 c = true) :
    quoteUnicode chars.flatten
      = .ok (if chars.any (fun c => decide (1 < c.length)) = true
          then 34 :: (chars.flatMap quotedChar ++ [34]) else chars.flatMap quotedChar) := by
  obtain ⟨rune, _, he⟩ := quoteLoop_chars chars h { buf := [], rune := [0, 0, 0], nonAscii := false } rfl
  unfold quoteUnicode
  rw [he]
  have q : str "\"" = [34] := rfl
  by_cases hm : chars.any (fun c => decide (1 < c.length)) = true
  · simp [hm, q]
  · simp [hm]

theorem quoteLoop_all_ascii (s : GoString) (h : ∀ b ∈ s, b < 0x80) :
    ∀ st : QuoteState, quoteLoop 0 s st = .ok { st with buf := st.buf ++ s } := by
  induction s with
  | nil => intro st; simp [quoteLoop]
  | cons b rest ih =>
    intro st
    rw [quoteLoop_ascii b rest st (h b (by simp)), ih (fun x hx => h x (by simp [hx]))]
    simp

/-! ## Sorting: auxiliary facts -/

theorem strLess_irrefl : ∀ x : GoString, strLess x x = false
  | [] => rfl
  | a :: as => by simp [strLess, strLess_irrefl as]

theorem strLe_total : ∀ x y : GoString, strLe x y ∨ strLe y x
  | [], [] => by simp [strLe, strLess]
  | [], _ :: _ => by simp [strLe, strLess]
  | _ :: _, [] => by simp [strLe, strLess]
  | a :: as, b :: bs => by
    have ih := strLe_total as bs
    unfold strLe at ih ⊢
    simp only [strLess]
    split_ifs <;> first | omega | simp | exact ih

theorem strLe_antisymm : ∀ x y : GoString, strLe x y → strLe y x → x = y
  | [], [] => by simp
  | [], _ :: _ => by simp [strLe, strLess]
  | _ :: _, [] => by simp [strLe, strLess]
  | a :: as, b :: bs => by
    have ih := strLe_antisymm as bs
    unfold strLe at ih ⊢
    simp only [strLess]
    split_ifs with h1 h2 h3
    all_goals first
      | (intro h; exact absurd h (by decide))
      | (intro _ h; exact absurd h (by decide))
      | (intro p q
         have e : a = b := by omega
         rw [e, ih p q])

theorem strLe_trans : ∀ x y z : GoString, strLe x y → strLe y z → strLe x z
  | [], _, _ => by
    intro _ _
    unfold strLe
    cases ‹GoString› <;> simp [strLess]
  | _ :: _, [], _ => by simp [strLe, strLess]
  | _ :: _, _ :: _, [] => by simp [strLe, strLess]
  | a :: as, b :: bs, c :: cs => by
    have ih := strLe_trans as bs cs
    unfold strLe at ih ⊢
    simp only [strLess]
    split_ifs <;> first
      | omega
      | (intro h; exact absurd h (by decide))
      | (intro _ h; exact absurd h (by decide))
      | (intro _ _; rfl)
      | exact ih

theorem sortList_sorted (l : List GoString) : (sortList l).Sorted strLe := by
  haveI : IsTotal GoString strLe := ⟨strLe_total⟩
  haveI : IsTrans GoString strLe := ⟨strLe_trans⟩
  exact List.sorted_insertionSort strLe l

theorem sortList_perm (l : List GoString) : (sortList l).Perm l :=
  List.perm_insertionSort strLe l

/-- A list has one sorted rearrangement only, so `sortList` is what any correct
sorting algorithm returns. -/
theorem sortList_unique (l l' : List GoString) (hp : l'.Perm l) (hs : l'.Sorted strLe) :
    l' = sortList l := by
  haveI : IsAntisymm GoString strLe := ⟨strLe_antisymm⟩
  exact List.eq_of_perm_of_sorted (hp.trans (sortList_perm l).symm) hs (sortList_sorted l)

theorem sortList_congr {l l' : List GoString} (hp : l.Perm l') : sortList l = sortList l' :=
  sortList_unique l' (sortList l) ((sortList_perm l).trans hp) (sortList_sorted l)

/-! ## Normalisation: auxiliary facts -/

theorem changesLoop_ok_iff (L : GoGit) (cs : List Change) :
    ∀ (acc out : List GoString), changesLoop L cs acc = .ok out ↔
      ∃ lines, List.Forall₂ (fun c l => changeLine L c = .ok l) cs lines ∧ out = acc ++ lines := by
  induction cs with
  | nil =>
    intro acc out
    simp [changesLoop, eq_comm]
  | cons c cs ih =>
    intro acc out
    simp only [changesLoop]
    cases hc : changeLine L c with
    | error e =>
      simp only [false_iff, not_exists, not_and, reduceCtorEq]
      intro lines hf
      cases hf with
      | cons h _ => rw [hc] at h; cases h
    | ok line =>
      simp only [ih]
      constructor
      · rintro ⟨lines, hf, rfl⟩
        exact ⟨line :: lines, List.Forall₂.cons hc hf, by simp⟩
      · rintro ⟨lines, hf, rfl⟩
        cases hf with
        | cons h hf =>
          rw [hc] at h
          cases h
          exact ⟨_, hf, by simp⟩

/-- The record `difftreeChangesToDiffs` builds from one library result. -/
theorem resultsLoop_ok_iff (L : GoGit) (rs : List gogitResult) :
    ∀ (acc out : List diff), resultsLoop L rs acc = .ok out ↔
      ∃ ds, List.Forall₂ (fun r d => ∃ lines, changesLoop L r.changes [] = .ok lines ∧
          d = { «from» := r.«from», «to» := r.«to», lines := some lines }) rs ds
        ∧ out = acc ++ ds := by
  induction rs with
  | nil =>
    intro acc out
    simp [resultsLoop, eq_comm]
  | cons r rs ih =>
    intro acc out
    simp only [resultsLoop]
    cases hc : changesLoop L r.changes [] with
    | error e =>
      simp only [false_iff, not_exists, not_and, reduceCtorEq]
      intro ds hf
      cases hf with
      | cons h _ =>
        obtain ⟨lines, h, _⟩ := h
        rw [hc] at h; cases h
    | ok lines =>
      simp only [ih]
      constructor
      · rintro ⟨ds, hf, rfl⟩
        exact ⟨_ :: ds, List.Forall₂.cons ⟨lines, hc, rfl⟩ hf, by simp⟩
      · rintro ⟨ds, hf, rfl⟩
        cases hf with
        | cons h hf =>
          obtain ⟨lines', h, rfl⟩ := h
          rw [hc] at h
          cases h
          exact ⟨_, hf, by simp⟩

theorem difftreeChangesToDiffs_ok_iff (L : GoGit) (rs : Slice gogitResult) (out : Slice diff) :
    difftreeChangesToDiffs L rs = .ok out ↔
      ∃ ds, List.Forall₂ (fun r d => ∃ lines, changesLoop L r.changes [] = .ok lines ∧
          d = { «from» := r.«from», «to» := r.«to», lines := some lines }) rs.elems ds
        ∧ out = some ds := by
  unfold difftreeChangesToDiffs
  cases h : resultsLoop L rs.elems [] with
  | error e =>
    simp only [false_iff, not_exists, not_and, reduceCtorEq]
    intro ds hf _
    have := (resultsLoop_ok_iff L rs.elems [] ds).2 ⟨ds, hf, by simp⟩
    rw [h] at this
    cases this
  | ok ret =>
    obtain ⟨ds, hf, hret⟩ := (resultsLoop_ok_iff L rs.elems [] ret).1 h
    simp only [List.nil_append] at hret
    subst hret
    constructor
    · intro e
      cases e
      exact ⟨ret, hf, rfl⟩
    · rintro ⟨ds, hf', rfl⟩
      have := (resultsLoop_ok_iff L rs.elems [] ds).2 ⟨ds, hf', by simp⟩
      rw [h] at this
      cases this
      rfl

/-! ## Comparison: auxiliary facts -/

theorem sortLines_eq_iff (d e : diff) :
    sortLines d = sortLines e ↔
      d.«from» = e.«from» ∧ d.«to» = e.«to» ∧ sortStrings d.lines = sortStrings e.lines := by
  cases d
  cases e
  simp [sortLines]

theorem compareLoop_spec : ∀ (as bb : List diff) (fail : Bool) (out : GoString),
    as.length = bb.length →
    ∃ fail' out', compareLoop as bb fail out = .ok (fail', out') ∧
      (fail' = false ↔ fail = false ∧
        ∀ (i : Nat) (ea eb : diff),
          as[i]? = some ea → bb[i]? = some eb → sortLines ea = sortLines eb)
  | [], bb, fail, out, _ => ⟨fail, out, by simp [compareLoop]⟩
  | _ :: _, [], _, _, h => by simp at h
  | ea :: as, eb :: bs, fail, out, h => by
    have hl : as.length = bs.length := by simpa using h
    simp only [compareLoop]
    by_cases he : sortLines ea = sortLines eb
    · obtain ⟨f', o', hrun, hiff⟩ := compareLoop_spec as bs fail out hl
      refine ⟨f', o', by simpa [he] using hrun, ?_⟩
      rw [hiff]
      constructor
      · rintro ⟨hf, hpos⟩
        refine ⟨hf, ?_⟩
        intro i x y hx hy
        cases i with
        | zero =>
          simp only [List.getElem?_cons_zero, Option.some.injEq] at hx hy
          subst hx; subst hy; exact he
        | succ j => exact hpos j x y (by simpa using hx) (by simpa using hy)
      · rintro ⟨hf, hpos⟩
        exact ⟨hf, fun i x y hx hy => hpos (i + 1) x y (by simpa using hx) (by simpa using hy)⟩
    · obtain ⟨f', o', hrun, hiff⟩ := compareLoop_spec as bs true
        (out ++ str "==================================\n"
          ++ (str "GIT:\n" ++ (sortLines ea).String ++ str "GOGIT:\n" ++ (sortLines eb).String)
          ++ str "==================================\n\n") hl
      refine ⟨f', o', by simpa [he] using hrun, ?_⟩
      rw [hiff]
      constructor
      · rintro ⟨hf, _⟩
        cases hf
      · rintro ⟨_, hpos⟩
        exact absurd (hpos 0 ea eb (by simp) (by simp)) he

theorem compareLoop_congr : ∀ (as as' bb bb' : List diff) (fail : Bool) (out : GoString),
    List.Forall₂ (fun d d' => sortLines d = sortLines d') as as' →
    List.Forall₂ (fun d d' => sortLines d = sortLines d') bb bb' →
    compareLoop as bb fail out = compareLoop as' bb' fail out
  | _, _, _, _, fail, out, .nil, _ => by simp [compareLoop]
  | _, _, _, _, fail, out, .cons _ _, .nil => by simp [compareLoop]
  | _, _, _, _, fail, out, .cons ha hra, .cons hb hrb => by
    simp only [compareLoop, ha, hb]
    split_ifs
    · exact compareLoop_congr _ _ _ _ _ _ hra hrb
    · exact compareLoop_congr _ _ _ _ _ _ hra hrb

theorem sortLines_of_linesPermuted {d d' : diff} (h : linesPermuted d d') :
    sortLines d = sortLines d' := by
  obtain ⟨h1, h2, h3, h4⟩ := h
  rw [sortLines_eq_iff]
  refine ⟨h1, h2, ?_⟩
  cases hd : d.lines <;> cases hd' : d'.lines <;> simp_all [sortStrings, Slice.elems]
  exact sortList_congr h4

theorem changesLoop_perm (L : GoGit) {cs cs' : List Change} (hp : cs.Perm cs')
    {lines : List GoString} (h : changesLoop L cs [] = .ok lines) :
    ∃ lines', changesLoop L cs' [] = .ok lines' ∧ lines.Perm lines' := by
  obtain ⟨ls, hf, rfl⟩ := (changesLoop_ok_iff L cs [] lines).1 h
  obtain ⟨ls', hf', hp'⟩ := List.perm_comp_forall₂ hp.symm hf
  exact ⟨ls', (changesLoop_ok_iff L cs' [] ls').2 ⟨ls', hf', by simp⟩, by simpa using hp'.symm⟩

theorem normalise_perm (L : GoGit) {bs bs' : List gogitResult}
    (hp : List.Forall₂ changesPermuted bs bs') {bb : Slice diff}
    (h : difftreeChangesToDiffs L (some bs) = .ok bb) :
    ∃ bb', difftreeChangesToDiffs L (some bs') = .ok bb' ∧
      List.Forall₂ (fun d d' => sortLines d = sortLines d') bb.elems bb'.elems := by
  obtain ⟨ds, hf, rfl⟩ := (difftreeChangesToDiffs_ok_iff L (some bs) bb).1 h
  simp only [Slice.elems] at hf ⊢
  suffices hs : ∃ ds', List.Forall₂ (fun r d => ∃ lines, changesLoop L r.changes [] = .ok lines ∧
      d = { «from» := r.«from», «to» := r.«to», lines := some lines }) bs' ds' ∧
      List.Forall₂ (fun d d' => sortLines d = sortLines d') ds ds' by
    obtain ⟨ds', hf', hs'⟩ := hs
    exact ⟨some ds', (difftreeChangesToDiffs_ok_iff L (some bs') (some ds')).2 ⟨ds', hf', rfl⟩, hs'⟩
  clear h
  induction hp generalizing ds with
  | nil =>
    cases hf
    exact ⟨[], .nil, .nil⟩
  | cons hr _ ih =>
    cases hf with
    | cons hd hf =>
      obtain ⟨lines, hl, rfl⟩ := hd
      obtain ⟨ds', hf', hs'⟩ := ih _ hf
      obtain ⟨h1, h2, h3⟩ := hr
      obtain ⟨lines', hl', hperm⟩ := changesLoop_perm L h3 hl
      refine ⟨_ :: ds', .cons ⟨lines', hl', rfl⟩ hf', .cons ?_ hs'⟩
      apply sortLines_of_linesPermuted
      exact ⟨h1, h2, rfl, by simpa [Slice.elems] using hperm⟩

/-! ## Commit pairing: auxiliary facts -/

theorem pairCommitsLoop_spec (commits : List GoString) :
    ∀ (n : Nat) (ret : List (GoString × GoString)), n < commits.length →
      ∃ ps : List (GoString × GoString),
        pairCommitsLoop commits n ret = .ok (ret ++ ps) ∧ ps.length = n ∧
        ∀ k : Nat, k < n → ∃ older newer : GoString,
          commits[n - k]? = some older ∧ commits[n - 1 - k]? = some newer
            ∧ ps[k]? = some (older, newer) := by
  intro n
  induction n with
  | zero =>
    intro ret _
    exact ⟨[], by simp [pairCommitsLoop], rfl, fun k hk => absurd hk (by omega)⟩
  | succ n ih =>
    intro ret hn
    obtain ⟨x, h1⟩ : ∃ x, commits[n + 1]? = some x := ⟨_, List.getElem?_eq_getElem hn⟩
    obtain ⟨y, h0⟩ : ∃ y, commits[n]? = some y :=
      ⟨_, List.getElem?_eq_getElem (Nat.lt_of_succ_lt hn)⟩
    obtain ⟨ps, hrun, hlen, hps⟩ := ih (ret ++ [(x, y)]) (by omega)
    refine ⟨(x, y) :: ps, ?_, by simp [hlen], ?_⟩
    · simp only [pairCommitsLoop, h1, h0, hrun]
      simp
    · intro k hk
      cases k with
      | zero => exact ⟨x, y, by simpa using h1, by simpa using h0, by simp⟩
      | succ j =>
        obtain ⟨older, newer, ho, hn', hp⟩ := hps j (by omega)
        refine ⟨older, newer, ?_, ?_, by simpa using hp⟩
        · rw [show n + 1 - (j + 1) = n - j by omega]; exact ho
        · rw [show n + 1 - 1 - (j + 1) = n - 1 - j by omega]; exact hn'

/-! ## Reading a quoted path back: auxiliary facts -/

theorem escapeAhead_eq_startsWithOctal (l : GoString) : escapeAhead l = startsWithOctal 3 l := by
  match l with
  | [] => rfl
  | [_] => simp [escapeAhead, startsWithOctal]
  | [_, _] => simp [escapeAhead, startsWithOctal]
  | _ :: _ :: _ :: _ => simp [escapeAhead, startsWithOctal, Bool.and_assoc]

theorem quotedChar_multi_head (c : List Nat) (hv : isUtf8Char3 c = true) (hl : 1 < c.length) :
    ∃ tail, quotedChar c = 0x5C :: tail := by
  match c, hv, hl with
  | [], _, hl => simp at hl
  | [_], _, hl => simp at hl
  | [b0, b1], _, _ => exact ⟨_, by simp [quotedChar]; rfl⟩
  | [b0, b1, b2], _, _ => exact ⟨_, by simp [quotedChar]; rfl⟩
  | _ :: _ :: _ :: _ :: _, hv, _ => simp [isUtf8Char3] at hv

theorem startsWithOctal_quoted : ∀ (k : Nat) (chars : List (List Nat)),
    (∀ c ∈ chars, isUtf8Char3 c = true) →
    startsWithOctal k (chars.flatMap quotedChar) = true → startsWithOctal k chars.flatten = true
  | 0, _, _, _ => by simp [startsWithOctal]
  | k + 1, [], _, h => by simp [startsWithOctal] at h
  | k + 1, c :: cs, hv, h => by
    have hc := hv c (by simp)
    have hcs : ∀ c ∈ cs, isUtf8Char3 c = true := fun c hc => hv c (by simp [hc])
    by_cases hl : 1 < c.length
    · obtain ⟨tail, ht⟩ := quotedChar_multi_head c hc hl
      simp [List.flatMap_cons, ht, startsWithOctal, isOctalDigit] at h
    · match c, hc, hl with
      | [], hc, _ => simp [isUtf8Char3] at hc
      | [a], _, _ =>
        simp only [List.flatMap_cons, quotedChar, List.length_singleton, le_refl, if_true,
          List.singleton_append, startsWithOctal, Bool.and_eq_true] at h
        simp only [List.flatten_cons, List.singleton_append, startsWithOctal, Bool.and_eq_true]
        exact ⟨h.1, startsWithOctal_quoted k cs hcs h.2⟩
      | _ :: _ :: _, _, hl => simp at hl

theorem unescape_escape (b : Nat) (rest : GoString) (h1 : 128 ≤ b) (h2 : b < 256) :
    unescapeFrom 0 (0x5C :: (octal3 b ++ rest)) = b :: unescapeFrom 0 rest := by
  have d0 : 48 ≤ 48 + b / 64 ∧ 48 + b / 64 ≤ 55 := by omega
  have d1 : 48 ≤ 48 + b / 8 % 8 ∧ 48 + b / 8 % 8 ≤ 55 := by omega
  have d2 : 48 ≤ 48 + b % 8 ∧ 48 + b % 8 ≤ 55 := by omega
  have v : (b / 64 * 64 + b / 8 % 8 * 8 + b % 8) % 256 = b := by omega
  simp [unescapeFrom, octal3, escapeAhead, isOctalDigit, escapeValue, d0, d1, d2, v]

theorem unescape_quoted : ∀ (chars : List (List Nat)),
    (∀ c ∈ chars, isUtf8Char3 c = true) → hasOctalEscape chars.flatten = false →
    unescapeFrom 0 (chars.flatMap quotedChar) = chars.flatten
  | [], _, _ => by simp [unescapeFrom]
  | c :: cs, hv, hne => by
    have hc := hv c (by simp)
    have hcs : ∀ c ∈ cs, isUtf8Char3 c = true := fun c hc => hv c (by simp [hc])
    match c, hc, hne with
    | [], hc, _ => simp [isUtf8Char3] at hc
    | [a], _, hne =>
      have e1 : (([a] : List Nat) :: cs).flatten = a :: cs.flatten := by simp
      have e2 : (([a] : List Nat) :: cs).flatMap quotedChar = a :: cs.flatMap quotedChar := by
        simp [quotedChar]
      rw [e1] at hne ⊢
      rw [e2]
      simp only [hasOctalEscape, Bool.or_eq_false_iff, Bool.and_eq_false_imp, beq_iff_eq] at hne
      have ih := unescape_quoted cs hcs hne.2
      have hno : ¬ (a = 0x5C ∧ escapeAhead (cs.flatMap quotedChar) = true) := by
        rintro ⟨ha, he⟩
        rw [escapeAhead_eq_startsWithOctal] at he
        have := startsWithOctal_quoted 3 cs hcs he
        rw [← escapeAhead_eq_startsWithOctal, hne.1 ha] at this
        cases this
      simp only [unescapeFrom, hno, if_false, ih]
    | [b0, b1], hc, hne =>
      have hb : 0xC2 ≤ b0 ∧ b0 ≤ 0xDF ∧ 0x80 ≤ b1 ∧ b1 ≤ 0xBF := by
        simpa [isUtf8Char3] using hc
      have hne' : hasOctalEscape cs.flatten = false := by
        simp only [List.flatten_cons, List.cons_append, List.nil_append, hasOctalEscape,
          Bool.or_eq_false_iff] at hne
        exact hne.2.2
      have ih := unescape_quoted cs hcs hne'
      have e : (([b0, b1] : List Nat) :: cs).flatMap quotedChar
          = 0x5C :: (octal3 b0 ++ (0x5C :: (octal3 b1 ++ cs.flatMap quotedChar))) := by
        simp [quotedChar]
      rw [e, unescape_escape b0 _ (by omega) (by omega),
        unescape_escape b1 _ (by omega) (by omega), ih]
      simp
    | [b0, b1, b2], hc, hne =>
      have hb : threeByte b0 b1 b2 := by simpa [isUtf8Char3, threeByte] using hc
      unfold threeByte at hb
      have hne' : hasOctalEscape cs.flatten = false := by
        simp only [List.flatten_cons, List.cons_append, List.nil_append, hasOctalEscape,
          Bool.or_eq_false_iff] at hne
        exact hne.2.2.2
      have ih := unescape_quoted cs hcs hne'
      have e : (([b0, b1, b2] : List Nat) :: cs).flatMap quotedChar
          = 0x5C :: (octal3 b0 ++ (0x5C :: (octal3 b1
              ++ (0x5C :: (octal3 b2 ++ cs.flatMap quotedChar))))) := by
        simp [quotedChar]
      rw [e, unescape_escape b0 _ (by omega) (by omega),
        unescape_escape b1 _ (by omega) (by omega),
        unescape_escape b2 _ (by omega) (by omega), ih]
      simp
    | _ :: _ :: _ :: _ :: _, hc, _ => simp [isUtf8Char3] at hc

theorem stripQuotes_quoted (x : GoString) : stripQuotes (34 :: (x ++ [34])) = some x := by
  simp [stripQuotes]

/-! ## Properties of the specification -/

/-- C8. For every commit sequence of length N ≥ 2, `pairCommits` returns exactly
N-1 pairs, and its k-th pair (k = 0 .. N-2) is (commits[N-1-k], commits[N-2-k]):
oldest pair first, each pair ordered (older, newer). -/
theorem pairCommits_pairs (commits : List GoString) (hN : 2 ≤ commits.length) :
    ∃ pairs : List (GoString × GoString),
      pairCommits commits = .ok pairs ∧ pairs.length = commits.length - 1 ∧
      ∀ k : Nat, k + 2 ≤ commits.length → ∃ older newer : GoString,
        commits[commits.length - 1 - k]? = some older ∧
        commits[commits.length - 2 - k]? = some newer ∧ pairs[k]? = some (older, newer) := by
  obtain ⟨ps, hrun, hlen, hps⟩ :=
    pairCommitsLoop_spec commits (commits.length - 1) [] (by omega)
  have h0 : ¬ commits.length = 0 := by omega
  refine ⟨ps, by simpa [pairCommits, h0] using hrun, hlen, ?_⟩
  intro k hk
  obtain ⟨older, newer, ho, hn, hp⟩ := hps k (by omega)
  refine ⟨older, newer, ho, ?_, hp⟩
  rw [show commits.length - 2 - k = commits.length - 1 - 1 - k by omega]
  exact hn

/-- C8 on the input `["h4","h3","h2","h1"]` of the specification: three pairs,
(h1,h2), (h2,h3), (h3,h4). -/
theorem pairCommits_pairs_witness :
    pairCommits [str "h4", str "h3", str "h2", str "h1"]
        = .ok [(str "h1", str "h2"), (str "h2", str "h3"), (str "h3", str "h4")]
      ∧ ∃ pairs : List (GoString × GoString),
        pairCommits [str "h4", str "h3", str "h2", str "h1"] = .ok pairs ∧
        pairs.length = [str "h4", str "h3", str "h2", str "h1"].length - 1 ∧
        ∀ k : Nat, k + 2 ≤ [str "h4", str "h3", str "h2", str "h1"].length →
          ∃ older newer : GoString,
            [str "h4", str "h3", str "h2", str "h1"][
              [str "h4", str "h3", str "h2", str "h1"].length - 1 - k]? = some older ∧
            [str "h4", str "h3", str "h2", str "h1"][
              [str "h4", str "h3", str "h2", str "h1"].length - 2 - k]? = some newer ∧
            pairs[k]? = some (older, newer) :=
  ⟨rfl, pairCommits_pairs [str "h4", str "h3", str "h2", str "h1"] (by decide)⟩

/-- C9, as stated, fails: on the one-commit sequence `["h0"]` the function
`pairCommits` returns a pair list, the empty one, and no error. -/
theorem pairCommits_single_returns : pairCommits [str "h0"] = .ok [] := rfl

/-- C9, amended. Short histories are refused by the caller: when no override list
is set and the discovered history has fewer than 2 commits, `doWithGit` fails
with "the repo has less than 2 commits" whatever the diffing backend is, so that
neither `pairCommits` nor the backend decides the outcome; `pairCommits`
itself returns the empty pair list on a one-commit sequence, which is what an
override list of one commit leads to. -/
theorem doWithGit_short_history (commits : List GoString)
    (gitDiffPairs : List (GoString × GoString) → Go (Slice diff))
    (hN : commits.length < 2) :
    doWithGit [] (.ok commits) gitDiffPairs = .error (.err "the repo has less than 2 commits")
      ∧ (commits.length = 1 → pairCommits commits = .ok [])
      ∧ (commits.length = 1 → ∀ listed : Go (List GoString),
          doWithGit commits listed gitDiffPairs = gitDiffPairs []) := by
  refine ⟨by simp [doWithGit, hN], ?_, ?_⟩
  · intro h1
    match commits, h1 with
    | [c], _ => simp [pairCommits, pairCommitsLoop]
  · intro h1 listed
    match commits, h1 with
    | [c], _ => simp [doWithGit, pairCommits, pairCommitsLoop]

/-- C9 amended, on the history `["h0"]`. -/
theorem doWithGit_short_history_witness :
    doWithGit [] (.ok [str "h0"]) noDiffs = .error (.err "the repo has less than 2 commits")
      ∧ ([str "h0"].length = 1 → pairCommits [str "h0"] = .ok [])
      ∧ ([str "h0"].length = 1 → ∀ listed : Go (List GoString),
          doWithGit [str "h0"] listed noDiffs = noDiffs []) :=
  doWithGit_short_history [str "h0"] noDiffs (by decide)

/-- C6, as stated, fails: the modes `0644` and `0120000` are reported as a type
change although neither is the library's regular mode or its deprecated form.
Whatever the constants of the library are, `0644` against the symbolic-link
mode is a type change. -/
theorem fileTypeChange_bare_permission_mode :
    fileTypeChange goGit 0o644 0o120000 = true ∧ ¬ regularModeNarrow goGit 0o644
      ∧ ¬ regularModeNarrow goGit 0o120000
      ∧ ∀ L : GoGit, fileTypeChange L 0o644 L.SymlinkMode = true := by
  refine ⟨rfl, ?_, ?_, ?_⟩
  · simp [regularModeNarrow, goGit]
  · simp [regularModeNarrow, goGit]
  · intro L
    simp [fileTypeChange, isRegular, isLink]

/-- C6, amended. `fileTypeChange a b` holds if and only if one of the two modes is
a regular-file mode, meaning equal to the library's regular mode, to its
deprecated form or to the bare permission mode `0644`, and the other has the
symbolic-link bits set. With the constants of go-git, where no regular mode has
the symbolic-link bits, that is: exactly one of the two is regular and the other
has the symbolic-link bits; regular against regular-with-executable-bit is no
type change. -/
theorem fileTypeChange_iff (L : GoGit) (a b : Nat) :
    (fileTypeChange L a b = true ↔
        (regularMode L a ∧ symlinkBits L b) ∨ (symlinkBits L a ∧ regularMode L b))
      ∧ (fileTypeChange goGit a b = true ↔
          (regularMode goGit a ∧ ¬ regularMode goGit b ∧ symlinkBits goGit b)
            ∨ (regularMode goGit b ∧ ¬ regularMode goGit a ∧ symlinkBits goGit a))
      ∧ fileTypeChange goGit 0o100644 0o100755 = false := by
  have gen : ∀ (M : GoGit), fileTypeChange M a b = true ↔
      (regularMode M a ∧ symlinkBits M b) ∨ (symlinkBits M a ∧ regularMode M b) := by
    intro M
    simp [fileTypeChange, isRegular, isLink, regularMode, symlinkBits, or_assoc]
  have sep : ∀ x : Nat, regularMode goGit x → ¬ symlinkBits goGit x := by
    intro x hx
    rcases hx with h | h | h <;> subst h <;> simp [symlinkBits, goGit] <;> decide
  refine ⟨gen L, ?_, rfl⟩
  rw [gen goGit]
  constructor
  · rintro (⟨ha, hb⟩ | ⟨ha, hb⟩)
    · exact Or.inl ⟨ha, fun h => sep b h hb, hb⟩
    · exact Or.inr ⟨hb, fun h => sep a h ha, ha⟩
  · rintro (⟨ha, _, hb⟩ | ⟨hb, _, ha⟩)
    · exact Or.inl ⟨ha, hb⟩
    · exact Or.inr ⟨ha, hb⟩

/-- C4. On a path of ASCII bytes only (every byte below 0x80), in particular on
every non-empty one, `quoteUnicode` returns the path itself: no quotes are added
and no byte is changed. -/
theorem quoteUnicode_ascii (path : GoString) (h : ∀ b ∈ path, b < 0x80) :
    quoteUnicode path = .ok path := by
  simp [quoteUnicode, quoteLoop_all_ascii path h]

/-- C4 on the path `a/b.txt`. -/
theorem quoteUnicode_ascii_witness : quoteUnicode (str "a/b.txt") = .ok (str "a/b.txt") :=
  quoteUnicode_ascii (str "a/b.txt") (by decide)

/-- C3 fails on the code: the path made of the four-byte character U+1F600, and
the path `a/` followed by it and by `.txt`, hold a multi-byte character, yet
`quoteUnicode` returns no quoted string for them. It panics, since
`utf8.EncodeRune` writes four bytes into the scratch buffer of three. -/
theorem quoteUnicode_four_byte_panics :
    DecodeRuneInString [0xF0, 0x9F, 0x98, 0x80] = (0x1F600, 4)
      ∧ quoteUnicode [0xF0, 0x9F, 0x98, 0x80]
        = .error (.panic "runtime error: index out of range")
      ∧ quoteUnicode (str "a/" ++ [0xF0, 0x9F, 0x98, 0x80] ++ str ".txt")
        = .error (.panic "runtime error: index out of range") :=
  ⟨rfl, rfl, rfl⟩

/-- C10. For a path in well-formed UTF-8 whose characters take at most three
bytes each and one of which is not ASCII, `quoteUnicode` returns: the path
between double quotes with every byte of every multi-byte character written as
a backslash and three octal digits. Each such byte lies between 200 and 377
octal, and the unpadded `%o` gives exactly its three digits. -/
theorem quoteUnicode_three_byte_safe (chars : List (List Nat))
    (h : ∀ c ∈ chars, isUtf8Char3 c = true) (hm : ∃ c ∈ chars, 1 < c.length) :
    quoteUnicode chars.flatten = .ok (34 :: (chars.flatMap quotedChar ++ [34]))
      ∧ ∀ c ∈ chars, 1 < c.length → ∀ b ∈ c,
          0o200 ≤ b ∧ b ≤ 0o377 ∧ fmtOctal b = octal3 b
            ∧ (∀ d ∈ octal3 b, isOctalDigit d = true) ∧ escapeValue (octal3 b) = b := by
  constructor
  · have hany : chars.any (fun c => decide (1 < c.length)) = true := by
      obtain ⟨c, hc, hl⟩ := hm
      exact List.any_eq_true.2 ⟨c, hc, by simpa using hl⟩
    rw [quoteUnicode_chars chars h, if_pos hany]
  · intro c hc hl b hb
    have hv := h c hc
    have hr : 0o200 ≤ b ∧ b ≤ 0o377 := by
      match c, hv, hl, hb with
      | [b0, b1], hv, _, hb =>
        have hv : 0xC2 ≤ b0 ∧ b0 ≤ 0xDF ∧ 0x80 ≤ b1 ∧ b1 ≤ 0xBF := by
          simpa [isUtf8Char3] using hv
        simp only [List.mem_cons, List.mem_singleton, List.not_mem_nil, or_false] at hb
        rcases hb with rfl | rfl <;> omega
      | [b0, b1, b2], hv, _, hb =>
        have hv : threeByte b0 b1 b2 := by simpa [isUtf8Char3, threeByte] using hv
        unfold threeByte at hv
        simp only [List.mem_cons, List.mem_singleton, List.not_mem_nil, or_false] at hb
        rcases hb with rfl | rfl | rfl <;> omega
      | [], _, hl, _ => simp at hl
      | [_], _, hl, _ => simp at hl
      | _ :: _ :: _ :: _ :: _, hv, _, _ => simp [isUtf8Char3] at hv
    refine ⟨hr.1, hr.2, fmtOctal_high b hr.1 (by omega), ?_, ?_⟩
    · intro d hd
      simp only [octal3, List.mem_cons, List.mem_singleton, List.not_mem_nil, or_false] at hd
      simp only [isOctalDigit, decide_eq_true_eq]
      rcases hd with rfl | rfl | rfl <;> omega
    · simp only [octal3, escapeValue]
      omega

/-- C10 on the path `Märchen`, which is quoted as `"M\\303\\244rchen"`. -/
theorem quoteUnicode_three_byte_safe_witness :
    (maerchen.flatten = str "Märchen"
      ∧ 34 :: (maerchen.flatMap quotedChar ++ [34]) = str "\"M\\303\\244rchen\"")
    ∧ quoteUnicode maerchen.flatten = .ok (34 :: (maerchen.flatMap quotedChar ++ [34]))
      ∧ ∀ c ∈ maerchen, 1 < c.length → ∀ b ∈ c,
          0o200 ≤ b ∧ b ≤ 0o377 ∧ fmtOctal b = octal3 b
            ∧ (∀ d ∈ octal3 b, isOctalDigit d = true) ∧ escapeValue (octal3 b) = b :=
  ⟨⟨rfl, rfl⟩, quoteUnicode_three_byte_safe maerchen (by decide) (by decide)⟩

/-- C5, as stated, fails. The path that spells the escapes of `ä` in ASCII before
an `ä` is well-formed and holds a multi-byte character, yet reading its quoted
form back gives the bytes of `ää`, not the path; and it has the same quoted
form as `ää`, so `quoteUnicode` is not injective on such paths. -/
theorem quoteUnicode_roundtrip_fails :
    (∀ c ∈ spelledEscapes, isUtf8Char3 c = true) ∧ (∃ c ∈ spelledEscapes, 1 < c.length)
      ∧ (quoteUnicode spelledEscapes.flatten).toOption.bind unquote
          = some [0xC3, 0xA4, 0xC3, 0xA4]
      ∧ spelledEscapes.flatten ≠ [0xC3, 0xA4, 0xC3, 0xA4]
      ∧ quoteUnicode spelledEscapes.flatten = quoteUnicode [0xC3, 0xA4, 0xC3, 0xA4] := by
  refine ⟨by decide, by decide, rfl, by decide, rfl⟩

/-- C5, amended. For a path in well-formed UTF-8 whose characters take at most three
bytes each, one of which is multi-byte, and which holds no backslash followed by
three octal digits of its own: `quoteUnicode` returns, and stripping the quotes
and replacing each escape by its byte gives back the bytes of the path. Hence
two such paths with the same quoted form are equal. -/
theorem quoteUnicode_roundtrip (chars : List (List Nat))
    (h : ∀ c ∈ chars, isUtf8Char3 c = true) (hm : ∃ c ∈ chars, 1 < c.length)
    (hne : hasOctalEscape chars.flatten = false) :
    (∃ q, quoteUnicode chars.flatten = .ok q ∧ unquote q = some chars.flatten)
      ∧ ∀ others : List (List Nat), (∀ c ∈ others, isUtf8Char3 c = true) →
          (∃ c ∈ others, 1 < c.length) → hasOctalEscape others.flatten = false →
          quoteUnicode others.flatten = quoteUnicode chars.flatten →
          others.flatten = chars.flatten := by
  have key : ∀ cs : List (List Nat), (∀ c ∈ cs, isUtf8Char3 c = true) →
      (∃ c ∈ cs, 1 < c.length) → hasOctalEscape cs.flatten = false →
      quoteUnicode cs.flatten = .ok (34 :: (cs.flatMap quotedChar ++ [34]))
        ∧ unquote (34 :: (cs.flatMap quotedChar ++ [34])) = some cs.flatten := by
    intro cs hv hmulti hno
    have hany : cs.any (fun c => decide (1 < c.length)) = true := by
      obtain ⟨c, hc, hl⟩ := hmulti
      exact List.any_eq_true.2 ⟨c, hc, by simpa using hl⟩
    refine ⟨by rw [quoteUnicode_chars cs hv, if_pos hany], ?_⟩
    simp only [unquote, stripQuotes_quoted, Option.map_some', unescape_quoted cs hv hno]
  refine ⟨⟨_, (key chars h hm hne).1, (key chars h hm hne).2⟩, ?_⟩
  intro others hv hmulti hno heq
  have k1 := key chars h hm hne
  have k2 := key others hv hmulti hno
  rw [k1.1, k2.1] at heq
  have e : (34 :: (others.flatMap quotedChar ++ [34]) : GoString)
      = 34 :: (chars.flatMap quotedChar ++ [34]) := by
    injection heq
  have := k2.2
  rw [e, k1.2] at this
  exact (Option.some.inj this).symm

/-- C5 amended, on the path `Märchen`. -/
theorem quoteUnicode_roundtrip_witness :
    (∃ q, quoteUnicode maerchen.flatten = .ok q ∧ unquote q = some maerchen.flatten)
      ∧ ∀ others : List (List Nat), (∀ c ∈ others, isUtf8Char3 c = true) →
          (∃ c ∈ others, 1 < c.length) → hasOctalEscape others.flatten = false →
          quoteUnicode others.flatten = quoteUnicode maerchen.flatten →
          others.flatten = maerchen.flatten :=
  quoteUnicode_roundtrip maerchen (by decide) (by decide) (by decide)

/-- C7 fails on the code: for the library result that inserts a path named by
the four-byte character U+1F600, whose action is determinable, no record is
produced; `difftreeChangesToDiffs` panics inside `quoteUnicode`. -/
theorem difftreeChangesToDiffs_four_byte_panics :
    (∀ c ∈ fourByteResult.changes, goGit.Action c = .ok .Insert)
      ∧ difftreeChangesToDiffs goGit (some [fourByteResult])
        = .error (.panic "runtime error: index out of range") := by
  refine ⟨?_, rfl⟩
  intro c hc
  simp only [fourByteResult, List.mem_singleton] at hc
  subst hc
  rfl

/-- Whenever `difftreeChangesToDiffs` returns, it returns one record per library
result, in order, with the endpoints of the result and one line per change, in
order, each the line of its change; and it returns as soon as every change has
a line, that is a determinable action and a path on which `quoteUnicode`
returns. -/
theorem difftreeChangesToDiffs_records (L : GoGit) (rs : List gogitResult) :
    (∀ ds : List diff, difftreeChangesToDiffs L (some rs) = .ok (some ds) →
        List.Forall₂ (fun r d => d.«from» = r.«from» ∧ d.«to» = r.«to» ∧
          ∃ lines, d.lines = some lines ∧
            List.Forall₂ (fun c l => changeLine L c = .ok l) r.changes lines) rs ds)
      ∧ ((∀ r ∈ rs, ∀ c ∈ r.changes, ∃ l, changeLine L c = .ok l) →
        ∃ ds : List diff, difftreeChangesToDiffs L (some rs) = .ok (some ds)) := by
  constructor
  · intro ds h
    obtain ⟨ds2, hf, he⟩ := (difftreeChangesToDiffs_ok_iff L (some rs) (some ds)).1 h
    cases he
    refine hf.imp ?_
    rintro r d ⟨lines, hl, rfl⟩
    obtain ⟨ls, hls, he⟩ := (changesLoop_ok_iff L r.changes [] lines).1 hl
    rw [List.nil_append] at he
    subst he
    exact ⟨rfl, rfl, lines, rfl, hls⟩
  · intro hall
    have lines_of : ∀ cs : List Change, (∀ c ∈ cs, ∃ l, changeLine L c = .ok l) →
        ∃ ls, List.Forall₂ (fun c l => changeLine L c = .ok l) cs ls := by
      intro cs
      induction cs with
      | nil => exact fun _ => ⟨[], .nil⟩
      | cons c cs ih =>
        intro hc
        obtain ⟨l, hl⟩ := hc c (by simp)
        obtain ⟨ls, hls⟩ := ih fun x hx => hc x (by simp [hx])
        exact ⟨l :: ls, .cons hl hls⟩
    have recs_of : ∀ qs : List gogitResult,
        (∀ r ∈ qs, ∀ c ∈ r.changes, ∃ l, changeLine L c = .ok l) →
        ∃ ds : List diff, List.Forall₂ (fun r d => ∃ lines,
          changesLoop L r.changes [] = .ok lines ∧
          d = { «from» := r.«from», «to» := r.«to», lines := some lines }) qs ds := by
      intro qs
      induction qs with
      | nil => exact fun _ => ⟨[], .nil⟩
      | cons r qs ih =>
        intro hq
        obtain ⟨ls, hls⟩ := lines_of r.changes (hq r (by simp))
        obtain ⟨ds, hds⟩ := ih fun x hx => hq x (by simp [hx])
        exact ⟨({ «from» := r.«from», «to» := r.«to», lines := some ls } : diff) :: ds,
          .cons ⟨ls, (changesLoop_ok_iff L r.changes [] ls).2 ⟨ls, hls, by simp⟩, rfl⟩ hds⟩
    obtain ⟨ds, hds⟩ := recs_of rs hall
    exact ⟨ds, (difftreeChangesToDiffs_ok_iff L (some rs) (some ds)).2 ⟨ds, hds, rfl⟩⟩

/-- The line `difftreeChangesToDiffs` writes for a change whose action is
determinable: the status letter, a tab and the quoted path, as far as
`quoteUnicode` returns. -/
theorem changeLine_of_action (L : GoGit) (c : Change) :
    (L.Action c = .ok .Insert →
        changeLine L c = (quoteUnicode c.To.Name).map fun q => str "A\t" ++ q)
      ∧ (L.Action c = .ok .Delete →
        changeLine L c = (quoteUnicode c.From.Name).map fun q => str "D\t" ++ q)
      ∧ (L.Action c = .ok .Modify →
        fileTypeChange L c.From.TreeEntry.Mode c.To.TreeEntry.Mode = true →
        changeLine L c = (quoteUnicode c.From.Name).map fun q => str "T\t" ++ q)
      ∧ (L.Action c = .ok .Modify →
        fileTypeChange L c.From.TreeEntry.Mode c.To.TreeEntry.Mode = false →
        changeLine L c = (quoteUnicode c.From.Name).map fun q => str "M\t" ++ q) := by
  have t : str "\t" = [9] := rfl
  have cA : str "A" = [65] := rfl
  have cD : str "D" = [68] := rfl
  have cT : str "T" = [84] := rfl
  have cM : str "M" = [77] := rfl
  have tA : str "A\t" = [65, 9] := rfl
  have tD : str "D\t" = [68, 9] := rfl
  have tT : str "T\t" = [84, 9] := rfl
  have tM : str "M\t" = [77, 9] := rfl
  refine ⟨?_, ?_, ?_, ?_⟩
  · intro h
    simp only [changeLine, h, t, cA, tA]
    cases quoteUnicode c.To.Name <;> simp [Except.map]
  · intro h
    simp only [changeLine, h, t, cD, tD]
    cases quoteUnicode c.From.Name <;> simp [Except.map]
  · intro h hf
    simp only [changeLine, h, hf, t, cT, tT, if_true]
    cases quoteUnicode c.From.Name <;> simp [Except.map]
  · intro h hf
    simp only [changeLine, h, hf, t, cM, tM]
    cases quoteUnicode c.From.Name <;> simp [Except.map]

theorem forall₂_lines_ne_none (L : GoGit) {rs : List gogitResult} {ds : List diff}
    (hf : List.Forall₂ (fun r d => ∃ lines, changesLoop L r.changes [] = .ok lines ∧
      d = { «from» := r.«from», «to» := r.«to», lines := some lines }) rs ds) :
    ∀ d ∈ ds, d.lines ≠ none := by
  induction hf with
  | nil => simp
  | cons h _ ih =>
    intro d hd
    rcases List.mem_cons.1 hd with rfl | hd
    · obtain ⟨lines, _, rfl⟩ := h
      simp
    · exact ih d hd

/-- C1, as stated, fails in two ways. A nil `a` against an empty, non-nil `b`
have the same length and agree at every position, yet `compare` answers false
("a is nil"). And a record whose `lines` is the nil slice against a library
result without changes have equal endpoints and equal sorted lists of lines,
both empty, yet `compare` answers false. -/
theorem compare_nil_mismatch :
    (difftreeChangesToDiffs goGit (some []) = .ok (some [])
        ∧ sameSortedLines (Slice.elems none) (Slice.elems (some []))
        ∧ compare goGit none (some [])
          = .ok { equal := false, report := str "a is nil", stdout := [] })
      ∧ (difftreeChangesToDiffs goGit (some [unchangedResult]) = .ok (some [emptyRecord])
        ∧ sameSortedLines [nilRecord] [emptyRecord]
        ∧ (compare goGit (some [nilRecord]) (some [unchangedResult])).map CompareResult.equal
          = .ok false) := by
  refine ⟨⟨rfl, ?_, rfl⟩, rfl, ?_, rfl⟩
  · simp [sameSortedLines, Slice.elems]
  · refine ⟨rfl, ?_⟩
    intro i ea eb ha hb
    cases i with
    | zero =>
      simp only [List.getElem?_cons_zero, Option.some.injEq] at ha hb
      subst ha; subst hb
      exact ⟨rfl, rfl, rfl⟩
    | succ j => simp at ha

/-- C1, amended. When the changes of `b` all normalise without error, `compare(a, b)`
returns, and it returns true if and only if `a` and `b` are both nil or both
non-nil, have the same length and, at every position, `a[i]` and the normalised
form of `b[i]` have the same `from`, the same `to`, and the same slice of lines
once sorted, where the nil slice differs from the empty one; the normalised
form never has a nil slice of lines. -/
theorem compare_true_iff (L : GoGit) (a : Slice diff) (b : Slice gogitResult) (bb : Slice diff)
    (hb : difftreeChangesToDiffs L b = .ok bb) :
    (∀ eb ∈ bb.elems, eb.lines ≠ none) ∧
    ∃ res, compare L a b = .ok res ∧
      (res.equal = true ↔
        a.isNone = b.isNone ∧ a.len = b.len ∧
        ∀ (i : Nat) (ea eb : diff), a.elems[i]? = some ea → bb.elems[i]? = some eb →
          ea.«from» = eb.«from» ∧ ea.«to» = eb.«to»
            ∧ sortStrings ea.lines = sortStrings eb.lines) := by
  obtain ⟨ds, hf, rfl⟩ := (difftreeChangesToDiffs_ok_iff L b bb).1 hb
  refine ⟨forall₂_lines_ne_none L hf, ?_⟩
  match a, b, hb, hf with
  | none, none, _, _ => exact ⟨_, rfl, by simp [Slice.len, Slice.elems]⟩
  | none, some bs, _, _ => exact ⟨_, rfl, by simp⟩
  | some as, none, _, _ => exact ⟨_, rfl, by simp⟩
  | some as, some bs, hb, hf =>
    have hlen : bs.length = ds.length := hf.length_eq
    by_cases hl : as.length = bs.length
    · obtain ⟨fail, out, hrun, hiff⟩ := compareLoop_spec as ds false [] (hl.trans hlen)
      refine ⟨{ equal := !fail, report := [], stdout := out }, ?_, ?_⟩
      · simp [compare, hl, hb, Slice.elems, hrun]
      · simp only [Bool.not_eq_true', hiff, true_and, Slice.len, Slice.elems, Option.isNone_some,
          hl, sortLines_eq_iff]
    · refine ⟨{ equal := false,
                report := str ("different lengths (" ++ toString as.length ++ ", "
                  ++ toString bs.length ++ ")"),
                stdout := [] }, ?_, ?_⟩
      · simp only [compare, hl, ne_eq, not_false_eq_true, if_true]
      · simp [Slice.len, Slice.elems, hl]

/-- C1 amended, on the two examples of the specification: the pair (h0, h1) with
the single line `A<TAB>a/b.txt` on both sides compares as equal, and a record
with the line `M<TAB>p` against a result without changes does not. -/
theorem compare_true_iff_witness :
    ((compare goGit (some [insertedRecord]) (some [insertedResult])).map CompareResult.equal
        = .ok true
      ∧ (compare goGit (some [modifiedRecord]) (some [unchangedResult])).map CompareResult.equal
        = .ok false)
    ∧ (∀ eb ∈ Slice.elems (some [insertedRecord]), eb.lines ≠ none) ∧
      ∃ res, compare goGit (some [insertedRecord]) (some [insertedResult]) = .ok res ∧
        (res.equal = true ↔
          (some [insertedRecord] : Slice diff).isNone
            = (some [insertedResult] : Slice gogitResult).isNone
          ∧ Slice.len (some [insertedRecord]) = Slice.len (some [insertedResult])
          ∧ ∀ (i : Nat) (ea eb : diff),
            (Slice.elems (some [insertedRecord]))[i]? = some ea →
            (Slice.elems (some [insertedRecord]))[i]? = some eb →
            ea.«from» = eb.«from» ∧ ea.«to» = eb.«to»
              ∧ sortStrings ea.lines = sortStrings eb.lines) :=
  ⟨⟨rfl, rfl⟩,
    compare_true_iff goGit (some [insertedRecord]) (some [insertedResult])
      (some [insertedRecord]) rfl⟩

/-- C2. The boolean result of `compare` does not depend on the order of the lines
inside the records of `a` nor on the order of the changes inside the results of
`b`: when `a2` is `a` with the lines of any of its records permuted and `b2` is
`b` with the changes of any of its results permuted, `compare(a2, b2)` returns
exactly when `compare(a, b)` does, with the same boolean. -/
theorem compare_perm_invariant (L : GoGit) (a a2 : Slice diff) (b b2 : Slice gogitResult)
    (ha : a.isNone = a2.isNone) (hap : List.Forall₂ linesPermuted a.elems a2.elems)
    (hb : b.isNone = b2.isNone) (hbp : List.Forall₂ changesPermuted b.elems b2.elems) :
    (compare L a2 b2).toOption.map CompareResult.equal
      = (compare L a b).toOption.map CompareResult.equal := by
  match a, a2, b, b2, ha, hb, hap, hbp with
  | none, none, none, none, _, _, _, _ => rfl
  | none, none, some _, some _, _, _, _, _ => rfl
  | some _, some _, none, none, _, _, _, _ => rfl
  | some as, some as2, some bs, some bs2, _, _, hap, hbp =>
    simp only [Slice.elems] at hap hbp
    have la : as.length = as2.length := hap.length_eq
    have lb : bs.length = bs2.length := hbp.length_eq
    have hsa : List.Forall₂ (fun d d' => sortLines d = sortLines d') as as2 :=
      hap.imp fun _ _ h => sortLines_of_linesPermuted h
    have hbp' : List.Forall₂ changesPermuted bs2 bs :=
      hbp.flip.imp fun _ _ h => ⟨h.1.symm, h.2.1.symm, h.2.2.symm⟩
    by_cases hl : as.length = bs.length
    · have hl2 : as2.length = bs2.length := by omega
      cases h : difftreeChangesToDiffs L (some bs) with
      | ok bb =>
        obtain ⟨bb2, h2, hsb⟩ := normalise_perm L hbp h
        simp only [compare, hl, hl2, h, h2, ne_eq, not_true_eq_false, if_false,
          compareLoop_congr as as2 bb.elems bb2.elems false [] hsa hsb]
      | error e =>
        cases h2 : difftreeChangesToDiffs L (some bs2) with
        | ok bb2 =>
          obtain ⟨bb, h', _⟩ := normalise_perm L hbp' h2
          rw [h] at h'
          cases h'
        | error e2 =>
          simp only [compare, hl, hl2, h, h2, ne_eq, not_true_eq_false, if_false]
          cases e <;> cases e2 <;> rfl
    · have hl2 : ¬ as2.length = bs2.length := by omega
      simp [compare, hl, hl2, Except.toOption]

/-- C2 on the example of the specification: the lines `A<TAB>x`, `D<TAB>y` and
the same two lines exchanged compare alike, here as equal, against the library
result that inserts `x` and deletes `y` and against the one that lists the two
changes the other way round. -/
theorem compare_perm_invariant_witness :
    (compare goGit (some [addDeleteRecord]) (some [twoChangesResult])).toOption.map
        CompareResult.equal = some true
      ∧ (compare goGit (some [deleteAddRecord]) (some [twoChangesSwapped])).toOption.map
          CompareResult.equal
        = (compare goGit (some [addDeleteRecord]) (some [twoChangesResult])).toOption.map
          CompareResult.equal :=
  ⟨rfl,
    compare_perm_invariant goGit (some [addDeleteRecord]) (some [deleteAddRecord])
      (some [twoChangesResult]) (some [twoChangesSwapped]) rfl
      (.cons ⟨rfl, rfl, rfl, List.Perm.swap _ _ []⟩ .nil) rfl
      (.cons ⟨rfl, rfl, List.Perm.swap _ _ []⟩ .nil)⟩

end DiffTree
